import Mathlib

/-!
Verification of the wordle-solver core (src/lib.rs, src/bit_set.rs).

Shallow embedding conventions:
- Letters are natural numbers (the Rust code normalizes `a'..'z'` bytes to
  `0..25` via `b - 97`); a `Word` is a `List Nat`.
- The Rust `BitSet32` (a 26-bit mask over letters, see bit_set.rs) is modelled
  as `Finset Nat`.  Every operation used by lib.rs (`insert`, `remove`,
  `contains`, `clear`, `is_empty`, `len`, `intersect_with`, ascending
  iteration) is a total set operation on indices `< 26` in the source, so the
  data refinement from bitmask to finite set is exact; ascending iteration
  order is reflected by `Finset.sort`.
- The Rust `letter_counts: [(usize, usize); 26]` array is modelled as a
  function `Nat → Nat × Nat`; lib.rs only ever indexes it with normalized
  letters `< 26`, and loops over it are modelled as folds over `List.range 26`.
- `f64` average scores are modelled as `ℚ` (exact sum divided by exact count);
  `FloatOrd` comparison is order-compatible on the small concrete values used
  in the theorems below.
- Fallible functions return `Except`/`Option`; `&mut self` methods are state
  passing `Puzzle → Puzzle`.
-/

namespace WordleSolver

/-- The three per-position hint marks, from `enum Hint` in lib.rs. -/
inductive Hint : Type where
  | Correct : Hint
  | Present : Hint
  | Absent : Hint
deriving DecidableEq, Repr

/-- Word validation errors, from `enum WordError` in lib.rs (payloads dropped:
they only echo the offending input back to the caller). -/
inductive WordError : Type where
  | WrongWordLen : WordError
  | NotLowerAlpha : WordError
deriving DecidableEq, Repr

/-- Guess errors, from `enum GuessError` in lib.rs. -/
inductive GuessError : Type where
  | WrongHintLen : GuessError
  | WrongWordLen : GuessError
  | NotLowerAlpha : GuessError
deriving DecidableEq, Repr

/-- Solver errors, from `enum SolveErr` in lib.rs. -/
inductive SolveErr : Type where
  | Inconsistent : SolveErr
deriving DecidableEq, Repr

/-- Conversion `From<WordError> for GuessError` in lib.rs. -/
def wordErrToGuessErr : WordError → GuessError
  | .WrongWordLen => .WrongWordLen
  | .NotLowerAlpha => .NotLowerAlpha

/-- Test for an ASCII lowercase letter, the Rust range check `('a'..='z').contains(&c)`. -/
def isLowerAlpha (c : Char) : Bool := 97 ≤ c.toNat && c.toNat ≤ 122

/-- Validation from `fn check_word` in lib.rs: reject non-lowercase content
first, then a length mismatch. -/
def checkWord (expectedLen : Nat) (word : List Char) : Option WordError :=
  if word.any (fun c => !isLowerAlpha c) then some .NotLowerAlpha
  else if word.length ≠ expectedLen then some .WrongWordLen
  else none

/-- Normalization of a word to letter indices, the `normalized_chars!` macro
in lib.rs (`byte - 97`). -/
def normalize (word : List Char) : List Nat := word.map (fun c => c.toNat - 97)

/-- Building the per-letter available-count table from the answer
(the `counts` array loop in `fn get_hint`). -/
def buildCounts (answer : List Nat) : Nat → Nat :=
  answer.foldl (fun f ch => Function.update f ch (f ch + 1)) (fun _ => 0)

/-- The `drop_count!` macro of `fn get_hint`: decrement a letter's available
count if it is positive.  Returns the updated table. -/
def dropCount (f : Nat → Nat) (ch : Nat) : Nat → Nat :=
  if f ch > 0 then Function.update f ch (f ch - 1) else f

/-- First pass of `fn get_hint`: every exactly-matching position consumes one
unit of its letter's available count (the returned count is discarded). -/
def hintPass1 (f : Nat → Nat) (pairs : List (Nat × Nat)) : Nat → Nat :=
  pairs.foldl (fun f gp => if gp.1 = gp.2 then dropCount f gp.1 else f) f

/-- Second pass of `fn get_hint`: matching positions keep their `Correct` mark;
a non-matching position is `Present` if the guessed letter still has available
count (consuming one unit) and `Absent` otherwise. -/
def hintPass2 (f : Nat → Nat) : List (Nat × Nat) → List Hint
  | [] => []
  | (g, a) :: t =>
    if g = a then Hint.Correct :: hintPass2 f t
    else if f g > 0 then Hint.Present :: hintPass2 (Function.update f g (f g - 1)) t
    else Hint.Absent :: hintPass2 f t

/-- Hint computation on normalized words, the algorithmic core of
`fn get_hint` in lib.rs. -/
def getHintCore (guess answer : List Nat) : List Hint :=
  hintPass2 (hintPass1 (buildCounts answer) (guess.zip answer)) (guess.zip answer)

/-- Public `fn get_hint`: validates both words against the answer's length,
then runs the two-pass marking algorithm. -/
def getHint (guess answer : List Char) : Except WordError (List Hint) :=
  match checkWord answer.length answer with
  | some e => .error e
  | none =>
    match checkWord answer.length guess with
    | some e => .error e
    | none => .ok (getHintCore (normalize guess) (normalize answer))

/-- A slot of still-possible letters at one position: `BitSet32` in the Rust
code (a bitmask over the 26 letter indices), modelled as a finite set. -/
abbrev Slot := Finset Nat

/-- A normalized word (`struct Word` wraps `&[u8]` of letters `0..=25`). -/
abbrev Word := List Nat

/-- Solver state, `struct Puzzle` in lib.rs. -/
structure Puzzle : Type where
  allWords : List Word
  feasibleWords : List Word
  slots : List Slot
  letterCounts : Nat → Nat × Nat

/-- Feasibility test `Puzzle::could_be`: every letter must be admitted by its
slot, and every letter occurring a nonzero number of times in the word must
occur within its `(min, max)` range.  The Rust early-`return false` loops are
boolean conjunctions here (no side effects escape the function), and the
occurrence tally over `iter::zip(&self.slots, word.iter())` truncates to the
shorter sequence exactly as `zip` does. -/
def couldBe (p : Puzzle) (w : Word) : Bool :=
  ((p.slots.zip w).all fun sc => decide (sc.2 ∈ sc.1)) &&
  ((List.range 26).all fun l =>
    let occ := ((p.slots.zip w).map Prod.snd).count l
    occ == 0 || ((p.letterCounts l).1 ≤ occ && occ ≤ (p.letterCounts l).2))

/-- Mark each letter of one feasible word in its positional mask: the inner
loop of the slot-wise elimination in `Puzzle::reduce`.  Positions beyond the
word's length keep their mask (the Rust `iter::zip` stops there). -/
def insertWord : List Slot → Word → List Slot
  | ms, [] => ms
  | [], _ => []
  | m :: ms, c :: cs => insert c m :: insertWord ms cs

/-- The per-position letter masks: union over the feasible words of the
letters they place at each of the `n` positions. -/
def masksOf (n : Nat) (ws : List Word) : List Slot :=
  ws.foldl insertWord (List.replicate n ∅)

/-- One letter of the occurrence-based elimination in `Puzzle::reduce`: if at
most `min` slots still admit the letter, collapse each of those slots to the
singleton containing it. -/
def forceLetter (slots : List Slot) (l : Nat) (minv : Nat) : List Slot :=
  let idxs := slots.enum.filterMap fun is => if l ∈ is.2 then some is.1 else none
  if idxs.length > minv then slots
  else idxs.foldl (fun ss i => ss.set i {l}) slots

/-- The occurrence-based elimination loop of `Puzzle::reduce` over the 26
letters of `letter_counts`. -/
def forcing (slots : List Slot) (counts : Nat → Nat × Nat) : List Slot :=
  (List.range 26).foldl (fun ss l => forceLetter ss l (counts l).1) slots

/-- One pass of the fixed-point loop in `Puzzle::reduce`: refilter the
feasible-word cache, intersect each slot with the union of feasible letters at
its position, then run the occurrence-based eliminations. -/
def reducePass (p : Puzzle) : Puzzle :=
  let newFeasible := p.feasibleWords.filter fun w => couldBe p w
  let slots1 := List.zipWith (fun s m => s ∩ m) p.slots (masksOf p.slots.length newFeasible)
  { p with feasibleWords := newFeasible, slots := forcing slots1 p.letterCounts }

/-- Total number of letters admitted across all slots; the termination measure
for the fixed-point loop of `Puzzle::reduce`. -/
def slotsSize (ss : List Slot) : Nat := (ss.map Finset.card).sum

theorem slot_getD_set (l : List Slot) (i j : Nat) (a : Slot) :
    (l.set i a).getD j ∅ = if j = i ∧ i < l.length then a else l.getD j ∅ := by
  induction l generalizing i j with
  | nil => simp
  | cons h t ih =>
    cases i with
    | zero => cases j with
      | zero => simp
      | succ j' => simp
    | succ i' =>
      cases j with
      | zero => simp
      | succ j' =>
        simp only [List.set, List.getD_cons_succ, ih i' j', List.length_cons]
        by_cases hji : j' = i' ∧ i' < t.length
        · rw [if_pos hji, if_pos (by omega)]
        · rw [if_neg hji, if_neg (by omega)]

theorem insertWord_length (ms : List Slot) (w : Word) :
    (insertWord ms w).length = ms.length := by
  induction ms generalizing w with
  | nil => cases w <;> simp [insertWord]
  | cons m ms ih =>
    cases w with
    | nil => simp [insertWord]
    | cons c cs => simp [insertWord, ih]

theorem foldl_insertWord_length (ws : List Word) (acc : List Slot) :
    (ws.foldl insertWord acc).length = acc.length := by
  induction ws generalizing acc with
  | nil => rfl
  | cons w ws ih => simp [List.foldl_cons, ih, insertWord_length]

theorem masksOf_length (n : Nat) (ws : List Word) : (masksOf n ws).length = n := by
  simp [masksOf, foldl_insertWord_length]

theorem foldl_set_length (idxs : List Nat) (ss : List Slot) (l : Nat) :
    (idxs.foldl (fun ss i => ss.set i {l}) ss).length = ss.length := by
  induction idxs generalizing ss with
  | nil => rfl
  | cons i rest ih => simp [List.foldl_cons, ih, List.length_set]

theorem forceLetter_length (ss : List Slot) (l minv : Nat) :
    (forceLetter ss l minv).length = ss.length := by
  unfold forceLetter
  dsimp only
  split
  · rfl
  · exact foldl_set_length _ _ _

theorem forcing_length (ss : List Slot) (counts : Nat → Nat × Nat) :
    (forcing ss counts).length = ss.length := by
  unfold forcing
  generalize List.range 26 = ls
  induction ls generalizing ss with
  | nil => rfl
  | cons l rest ih => simp [List.foldl_cons, ih, forceLetter_length]

theorem reducePass_slots_length (p : Puzzle) :
    (reducePass p).slots.length = p.slots.length := by
  simp [reducePass, forcing_length, List.length_zipWith, masksOf_length]

theorem zipWith_inter_getD_subset (s m : List Slot) (j : Nat) :
    (List.zipWith (fun a b => a ∩ b) s m).getD j ∅ ⊆ s.getD j ∅ := by
  induction s generalizing m j with
  | nil => simp
  | cons h t ih =>
    cases m with
    | nil => simp
    | cons hm tm =>
      cases j with
      | zero => simpa using Finset.inter_subset_left
      | succ j' => simpa using ih tm j'

theorem foldl_set_getD_subset (idxs : List Nat) (ss : List Slot) (l : Nat)
    (hmem : ∀ i ∈ idxs, l ∈ ss.getD i ∅) (j : Nat) :
    (idxs.foldl (fun ss i => ss.set i {l}) ss).getD j ∅ ⊆ ss.getD j ∅ := by
  induction idxs generalizing ss with
  | nil => exact Finset.Subset.refl _
  | cons i rest ih =>
    rw [List.foldl_cons]
    refine (ih (ss.set i {l}) ?_ ).trans ?_
    · intro i' hi'
      rw [slot_getD_set]
      split
      · exact Finset.mem_singleton_self l
      · exact hmem i' (List.mem_cons_of_mem _ hi')
    · rw [slot_getD_set]
      split
      · next hcond =>
        rw [hcond.1]
        exact Finset.singleton_subset_iff.2 (hmem i (List.mem_cons_self _ _))
      · exact Finset.Subset.refl _

theorem mem_of_mem_forceIdxs (ss : List Slot) (l : Nat) (i : Nat)
    (h : i ∈ ss.enum.filterMap fun is => if l ∈ is.2 then some is.1 else none) :
    l ∈ ss.getD i ∅ := by
  rcases List.mem_filterMap.1 h with ⟨⟨i', s⟩, hmem, heq⟩
  by_cases hl : l ∈ s
  · rw [if_pos hl] at heq
    cases heq
    have := List.mk_mem_enum_iff_get?.1 hmem
    rw [List.getD_eq_getD_get?, this]
    exact hl
  · rw [if_neg hl] at heq
    cases heq

theorem forceLetter_getD_subset (ss : List Slot) (l minv : Nat) (j : Nat) :
    (forceLetter ss l minv).getD j ∅ ⊆ ss.getD j ∅ := by
  unfold forceLetter
  dsimp only
  split
  · exact Finset.Subset.refl _
  · exact foldl_set_getD_subset _ _ _ (fun i hi => mem_of_mem_forceIdxs ss l i hi) j

theorem forcing_getD_subset (ss : List Slot) (counts : Nat → Nat × Nat) (j : Nat) :
    (forcing ss counts).getD j ∅ ⊆ ss.getD j ∅ := by
  unfold forcing
  generalize List.range 26 = ls
  induction ls generalizing ss with
  | nil => exact Finset.Subset.refl _
  | cons l rest ih =>
    rw [List.foldl_cons]
    exact (ih _).trans (forceLetter_getD_subset ss l _ j)

theorem reducePass_slots_getD_subset (p : Puzzle) (j : Nat) :
    (reducePass p).slots.getD j ∅ ⊆ p.slots.getD j ∅ := by
  simp only [reducePass]
  exact (forcing_getD_subset _ _ j).trans (zipWith_inter_getD_subset _ _ j)

theorem slotsSize_le (ss' ss : List Slot) (hlen : ss'.length = ss.length)
    (hsub : ∀ j, ss'.getD j ∅ ⊆ ss.getD j ∅) : slotsSize ss' ≤ slotsSize ss := by
  induction ss' generalizing ss with
  | nil =>
    cases ss with
    | nil => exact Nat.le_refl _
    | cons b s => simp at hlen
  | cons a t ih =>
    cases ss with
    | nil => simp at hlen
    | cons b s =>
      have hhead : a ⊆ b := by simpa using hsub 0
      have htail : ∀ j, t.getD j ∅ ⊆ s.getD j ∅ := fun j => by simpa using hsub (j + 1)
      have := ih s (by simpa using hlen) htail
      simp only [slotsSize, List.map_cons, List.sum_cons]
      exact Nat.add_le_add (Finset.card_le_card hhead) this

theorem slotsSize_lt (ss' ss : List Slot) (hlen : ss'.length = ss.length)
    (hsub : ∀ j, ss'.getD j ∅ ⊆ ss.getD j ∅) (hne : ss' ≠ ss) :
    slotsSize ss' < slotsSize ss := by
  induction ss' generalizing ss with
  | nil =>
    cases ss with
    | nil => exact absurd rfl hne
    | cons b s => simp at hlen
  | cons a t ih =>
    cases ss with
    | nil => simp at hlen
    | cons b s =>
      have hhead : a ⊆ b := by simpa using hsub 0
      have htail : ∀ j, t.getD j ∅ ⊆ s.getD j ∅ := fun j => by simpa using hsub (j + 1)
      have hlen' : t.length = s.length := by simpa using hlen
      simp only [slotsSize, List.map_cons, List.sum_cons]
      by_cases hab : a = b
      · have hts : t ≠ s := fun h => hne (by rw [hab, h])
        rw [hab]
        exact Nat.add_lt_add_left (ih s hlen' htail hts) _
      · have : a ⊂ b := Finset.ssubset_iff_subset_ne.2 ⟨hhead, hab⟩
        exact Nat.add_lt_add_of_lt_of_le (Finset.card_lt_card this)
          (slotsSize_le t s hlen' htail)

/-- Fuel-indexed fixed-point loop of `Puzzle::reduce`: repeat `reducePass`
until a pass leaves every slot unchanged.  The Rust `did_something` flag is
set exactly when some slot's value changes during a pass (slot sets only ever
shrink, so this is equivalent to comparing the slot vector before and after
the pass; changes to the feasible-word cache do not set the flag, as in the
source). -/
def reduceFuel : Nat → Puzzle → Puzzle
  | 0, p => p
  | n + 1, p =>
    if (reducePass p).slots = p.slots then reducePass p
    else reduceFuel n (reducePass p)

/-- Loop `Puzzle::reduce`.  The Rust loop carries no fuel; `slotsSize + 1`
passes always reach the fixed point (each continuing pass strictly shrinks
the total slot size, see `slotsSize_lt`), and `reduce_eq` below shows this
definition satisfies the loop's recursion equation, i.e. is fuel-independent. -/
def reduce (p : Puzzle) : Puzzle := reduceFuel (slotsSize p.slots + 1) p

theorem reducePass_size_lt (p : Puzzle) (hne : (reducePass p).slots ≠ p.slots) :
    slotsSize (reducePass p).slots < slotsSize p.slots :=
  slotsSize_lt _ _ (reducePass_slots_length p) (reducePass_slots_getD_subset p) hne

theorem reduceFuel_congr (n : Nat) : ∀ (m : Nat) (p : Puzzle),
    slotsSize p.slots < n → slotsSize p.slots < m →
    reduceFuel n p = reduceFuel m p := by
  induction n with
  | zero => intro m p hn _; omega
  | succ n' ih =>
    intro m p hn hm
    cases m with
    | zero => omega
    | succ m' =>
      simp only [reduceFuel]
      by_cases hfix : (reducePass p).slots = p.slots
      · rw [if_pos hfix, if_pos hfix]
      · rw [if_neg hfix, if_neg hfix]
        have hlt := reducePass_size_lt p hfix
        exact ih m' (reducePass p) (by omega) (by omega)

/-- The recursion equation of the `Puzzle::reduce` loop: the fuel in
`reduce` is an implementation artifact of the embedding, always sufficient. -/
theorem reduce_eq (p : Puzzle) :
    reduce p =
      if (reducePass p).slots = p.slots then reducePass p
      else reduce (reducePass p) := by
  show reduceFuel (slotsSize p.slots + 1) p = _
  rw [reduceFuel]
  by_cases hfix : (reducePass p).slots = p.slots
  · rw [if_pos hfix, if_pos hfix]
  · rw [if_neg hfix, if_neg hfix]
    exact reduceFuel_congr _ _ _ (reducePass_size_lt p hfix) (Nat.lt_succ_self _)

/-- Fuel-indexed pass counter for the `Puzzle::reduce` loop. -/
def reduceItersFuel : Nat → Puzzle → Nat
  | 0, _ => 0
  | n + 1, p =>
    if (reducePass p).slots = p.slots then 1
    else 1 + reduceItersFuel n (reducePass p)

/-- Number of passes the fixed-point loop of `Puzzle::reduce` executes,
including the final pass that changes nothing. -/
def reduceIters (p : Puzzle) : Nat := reduceItersFuel (slotsSize p.slots + 1) p

/-- Sort rank of a hint in `Puzzle::guess_impl`: Correct before Present
before Absent. -/
def hintRank : Hint → Nat
  | .Correct => 0
  | .Present => 1
  | .Absent => 2

/-- An entry of the sorted walk in `Puzzle::guess_impl`:
(position, (letter, hint)). -/
abbrev Entry : Type := Nat × Nat × Hint

/-- The comparison used by the `sort_by_key` call in `Puzzle::guess_impl`:
lexicographic on (letter, hint rank, position). -/
def keyLe (e1 e2 : Entry) : Prop :=
  e1.2.1 < e2.2.1 ∨
    (e1.2.1 = e2.2.1 ∧
      (hintRank e1.2.2 < hintRank e2.2.2 ∨
        (hintRank e1.2.2 = hintRank e2.2.2 ∧ e1.1 ≤ e2.1)))

instance : DecidableRel keyLe := fun e1 e2 => by
  unfold keyLe
  infer_instance

instance : IsTotal Entry keyLe := by
  constructor
  intro a b
  unfold keyLe
  omega

instance : IsTrans Entry keyLe := by
  constructor
  intro a b c
  unfold keyLe
  omega

/-- The `word.sort_by_key(...)` call of `Puzzle::guess_impl`.  The keys
(letter, hint rank, position) are pairwise distinct because positions are,
so every sorting algorithm (in particular the stable Rust sort) produces
this unique sorted list. -/
def sortEntries (l : List Entry) : List Entry := l.insertionSort keyLe

/-- One step of the sorted walk in `Puzzle::guess_impl`, acting on the state
(prev_char, occ_idx, puzzle). -/
def guessStep : (Nat × Nat × Puzzle) → Entry → (Nat × Nat × Puzzle)
  | (pc, idx, q), (i, ch, h) =>
    let j := if ch = pc then idx else 0
    match h with
    | .Correct =>
        (ch, j + 1, { q with
          letterCounts := Function.update q.letterCounts ch
            (max (q.letterCounts ch).1 (j + 1), (q.letterCounts ch).2),
          slots := q.slots.set i {ch} })
    | .Present =>
        (ch, j + 1, { q with
          letterCounts := Function.update q.letterCounts ch
            (max (q.letterCounts ch).1 (j + 1), (q.letterCounts ch).2),
          slots := q.slots.set i ((q.slots.getD i ∅).erase ch) })
    | .Absent =>
        (ch, j + 1, { q with
          letterCounts := Function.update q.letterCounts ch
            ((q.letterCounts ch).1, min (q.letterCounts ch).2 j),
          slots := if j = 0 then q.slots.map (fun s => s.erase ch) else q.slots })

/-- State transition `Puzzle::guess_impl`: walk the (position, letter, hint)
triples sorted by letter, then hint rank, then position, maintaining an
occurrence index that resets whenever the letter changes; finally reduce. -/
def guessImpl (p : Puzzle) (word : Word) (resp : List Hint) : Puzzle :=
  reduce ((sortEntries (word.zip resp).enum).foldl guessStep (0, 0, p)).2.2

/-- Public `Puzzle::guess`: validate the word against the puzzle's length and
alphabet and the hint against the word's length, then run `guess_impl`.
Mirrors `&mut self` by returning the (possibly unchanged) state together with
the optional error. -/
def guess (p : Puzzle) (word : List Char) (hint : List Hint) :
    Puzzle × Option GuessError :=
  match checkWord p.slots.length word with
  | some e => (p, some (wordErrToGuessErr e))
  | none =>
    if (normalize word).length ≠ hint.length then (p, some .WrongHintLen)
    else (guessImpl p (normalize word) hint, none)

/-- Construction `Puzzle::new`: full alphabet in every slot, occurrence range
(0, word_len) for every letter, the dictionary as both candidate pool and
feasible cache, then an initial reduce.  A `Dictionary` is a sorted,
duplicate-free list of validated normalized words of uniform length
`wordLen`; we take that list directly. -/
def Puzzle.new (ws : List Word) (wordLen : Nat) : Puzzle :=
  reduce
    { allWords := ws
      feasibleWords := ws
      slots := List.replicate wordLen (Finset.range 26)
      letterCounts := fun _ => (0, wordLen) }

/-- First element of a slot's ascending iterator (`BitSet32` iterates bits
from least significant, i.e. smallest letter first). -/
def iterFirst (s : Slot) : Nat := (s.sort (· ≤ ·)).headI

/-- Cartesian product of lists with the first factor outermost, as produced
by itertools' `multi_cartesian_product`. -/
def listProd : List (List Hint) → List (List Hint)
  | [] => [[]]
  | xs :: rest => xs.bind fun x => (listProd rest).map (x :: ·)

/-- The `3^L` synthetic hint patterns enumerated per candidate in
`Puzzle::best_guess`, in the expansion order Present, Absent, Correct per
position. -/
def hintPatterns (n : Nat) : List (List Hint) :=
  listProd (List.replicate n [Hint.Present, Hint.Absent, Hint.Correct])

/-- Fuel-based Euclidean algorithm mirroring the structure of `Nat.gcd`;
with fuel at least the first argument it computes `Nat.gcd` (see `gcdF_eq`).
Kernel-computable, unlike the well-founded `Nat.gcd`. -/
def gcdF : Nat → Nat → Nat → Nat
  | 0, _, n => n
  | _ + 1, 0, n => n
  | f + 1, m + 1, n => gcdF f (n % (m + 1)) (m + 1)

theorem gcdF_eq (f : Nat) : ∀ m n : Nat, m ≤ f → gcdF f m n = Nat.gcd m n := by
  induction f with
  | zero =>
    intro m n hm
    interval_cases m
    simp [gcdF]
  | succ f' ih =>
    intro m n hm
    cases m with
    | zero => simp [gcdF]
    | succ m' =>
      rw [Nat.gcd_succ]
      exact ih _ _ (by have := Nat.mod_lt n (y := m' + 1) (by omega); omega)

/-- Exact rational value of the Rust f64 division `sum as f64 / cnt as f64`
used for the average-case score, built in already-reduced form so that it is
kernel-computable (`ratDiv_eq_div` identifies it with rational division). -/
def ratDiv (s c : Nat) : ℚ :=
  if hc : c = 0 then 0
  else
    Rat.mk' (Int.ofNat (s / gcdF s s c)) (c / gcdF s s c)
      (by
        rw [gcdF_eq s s c (Nat.le_refl s)]
        exact Nat.ne_of_gt (Nat.div_pos (Nat.gcd_le_right _ (Nat.pos_of_ne_zero hc))
          (Nat.gcd_pos_of_pos_right _ (Nat.pos_of_ne_zero hc))))
      (by
        rw [gcdF_eq s s c (Nat.le_refl s)]
        simpa using Nat.coprime_div_gcd_div_gcd
          (Nat.gcd_pos_of_pos_right _ (Nat.pos_of_ne_zero hc)))

theorem ratDiv_eq_div (s c : Nat) (hc : c ≠ 0) : ratDiv s c = (s : ℚ) / (c : ℚ) := by
  rw [ratDiv, dif_neg hc]
  have hg : 0 < Nat.gcd s c := Nat.gcd_pos_of_pos_right _ (Nat.pos_of_ne_zero hc)
  have hgF : gcdF s s c = Nat.gcd s c := gcdF_eq s s c (Nat.le_refl s)
  rw [Rat.mk'_eq_divInt]
  have hs : (Nat.gcd s c : ℤ) * (s / Nat.gcd s c : Nat) = (s : ℤ) := by
    rw [← Int.ofNat_mul]
    exact_mod_cast congrArg (Nat.cast : Nat → ℤ) (Nat.mul_div_cancel' (Nat.gcd_dvd_left s c) )
  have hcc : (Nat.gcd s c : ℤ) * (c / Nat.gcd s c : Nat) = (c : ℤ) := by
    rw [← Int.ofNat_mul]
    exact_mod_cast congrArg (Nat.cast : Nat → ℤ) (Nat.mul_div_cancel' (Nat.gcd_dvd_right s c))
  rw [hgF]
  rw [show (Int.ofNat (s / Nat.gcd s c)) = ((s / Nat.gcd s c : Nat) : ℤ) from rfl]
  rw [show ((s : ℚ) / (c : ℚ)) = Rat.divInt (s : ℤ) (c : ℤ) from by
    rw [Rat.divInt_eq_div]; push_cast; ring]
  rw [← hs, ← hcc, Rat.divInt_mul_left (by exact_mod_cast Nat.ne_of_gt hg)]

/-- Strict comparison of candidate scores (worst case, average case): the Rust
tuple order on `(u64, FloatOrd<f64>)`.  Averages are exact rationals here. -/
def scoreLt (a b : Nat × ℚ) : Bool := a.1 < b.1 || (a.1 == b.1 && decide (a.2 < b.2))

/-- Lexicographic order on normalized words, the derived `Ord` of
`struct Word` (slice ordering). -/
def wordLt : Word → Word → Bool
  | [], [] => false
  | [], _ :: _ => true
  | _ :: _, [] => false
  | a :: as, b :: bs => a < b || (a == b && wordLt as bs)

/-- A worker's candidate record: (guess, (worst case, average case),
could-be-answer flag). -/
abbrev Cand : Type := Word × (Nat × ℚ) × Bool

/-- Rank used by the final `min_by_key` merge: a candidate that could still be
the answer sorts before one that could not. -/
def cbfRank (b : Bool) : Nat := if b then 0 else 1

/-- The full merge key order of `best_guess`:
(score, could-be-answer rank, word), lexicographically. -/
def candKeyLt (x y : Cand) : Bool :=
  scoreLt x.2.1 y.2.1 ||
    (decide (x.2.1 = y.2.1) &&
      (cbfRank x.2.2 < cbfRank y.2.2 ||
        (cbfRank x.2.2 == cbfRank y.2.2 && wordLt x.1 y.1)))

/-- The per-candidate hint-pattern loop of `Puzzle::best_guess`: accumulate
worst case, sum and count of possible patterns; skip impossible patterns
(0 feasible words remaining); abandon the candidate (`none`) as soon as its
running worst case exceeds the worker's current best worst case `pruneAt`,
or if no pattern at all was possible. -/
def evalLoop (p : Puzzle) (g : Word) (pruneAt : Option Nat) :
    List (List Hint) → Nat → Nat → Nat → Option (Nat × Nat × Nat)
  | [], worst, s, c => if worst = 0 then none else some (worst, s, c)
  | r :: rs, worst, s, c =>
    let possible := (guessImpl p g r).feasibleWords.length
    if possible = 0 then evalLoop p g pruneAt rs worst s c
    else
      match pruneAt with
      | some pb =>
        if max worst possible > pb then none
        else evalLoop p g pruneAt rs (max worst possible) (s + possible) (c + 1)
      | none => evalLoop p g pruneAt rs (max worst possible) (s + possible) (c + 1)

/-- Evaluation of one candidate guess over all hint patterns. -/
def evalCand (p : Puzzle) (g : Word) (pruneAt : Option Nat) :
    Option (Nat × Nat × Nat) :=
  evalLoop p g pruneAt (hintPatterns p.slots.length) 0 0 0

/-- One iteration of a worker's `'next_word` loop in `Puzzle::best_guess`:
evaluate the candidate (pruning against the worker's own best worst case) and
replace the worker's best on a strictly smaller score, or on an equal score
when the incumbent could not be the answer. -/
def workerStep (p : Puzzle) (best : Option Cand) (g : Word) : Option Cand :=
  match evalCand p g (best.map fun b => b.2.1.1) with
  | none => best
  | some (w, s, c) =>
    let score : Nat × ℚ := (w, ratDiv s c)
    match best with
    | none => some (g, score, couldBe p g)
    | some prev =>
      if scoreLt score prev.2.1 || (decide (score = prev.2.1) && !prev.2.2)
      then some (g, score, couldBe p g) else best

/-- A whole worker thread: fold the candidate words it pulls from the shared
queue, in order, through `workerStep`. -/
def workerRun (p : Puzzle) (gs : List Word) : Option Cand :=
  gs.foldl (workerStep p) none

/-- The final `min_by_key` over the workers' results: first candidate with
the minimal (score, could-be rank, word) key. -/
def mergeBest (cands : List Cand) : Option Cand :=
  cands.foldl
    (fun acc x => match acc with
      | none => some x
      | some a => if candKeyLt x a then some x else acc) none

/-- Search `Puzzle::best_guess`.  The `parts` argument gives the subsequence
of `all_words` each worker pulls from the shared mutex-guarded iterator:
running with one thread is `parts = [p.allWords]`, and any schedule of `n`
threads yields some order-preserving partition of `p.allWords` into `n`
parts.  Returns the best (word, worst case, average case) or `Inconsistent`. -/
def bestGuessWith (p : Puzzle) (parts : List (List Word)) :
    Except SolveErr (Word × Nat × ℚ) :=
  if p.slots.any fun s => decide (s = ∅) then .error .Inconsistent
  else if p.slots.all fun s => decide (s.card = 1) then
    .ok (p.slots.map iterFirst, 0, 0)
  else
    match mergeBest (parts.filterMap (workerRun p)) with
    | some b => .ok (b.1, b.2.1.1, b.2.1.2)
    | none => .error .Inconsistent

instance exceptDecEq {e a : Type} [DecidableEq e] [DecidableEq a] :
    DecidableEq (Except e a)
  | .error e1, .error e2 => decidable_of_iff (e1 = e2) (by simp)
  | .error _, .ok _ => isFalse (by intro hc; cases hc)
  | .ok _, .error _ => isFalse (by intro hc; cases hc)
  | .ok a1, .ok a2 => decidable_of_iff (a1 = a2) (by simp)

/-!
Concrete states used by counterexamples and witnesses.  Letters are
normalized: a = 0, b = 1, c = 2, r = 17, x = 23.
-/

/-- Dictionary of the single word "b". -/
def dictB : List Word := [[1]]

/-- State of the "b" puzzle after guessing "a" and receiving Present: the
Present hint raises the minimum occurrence bound of letter a to 1 while the
only slot stays {b}. -/
def pzB : Puzzle := (guess (Puzzle.new dictB 1) ['a'] [Hint.Present]).1

/-- State of the "b" puzzle after "a"/Absent (capping max of a at 0) followed
by "a"/Present (raising min of a to 1): an inconsistent hint sequence. -/
def pzB2 : Puzzle :=
  (guess (guess (Puzzle.new dictB 1) ['a'] [Hint.Absent]).1 ['a'] [Hint.Present]).1

/-- Dictionary {ba, br, ca, cb, cr, ra, xa} in sorted order, as
`Dictionary::with_words` would store it. -/
def cexDict : List Word := [[1,0],[1,17],[2,0],[2,1],[2,17],[17,0],[23,0]]

/-- The search counterexample state: after guessing "xa" and receiving
(Absent, Correct), the feasible words are {ba, ca, ra}, slot 0 is {b, c, r},
slot 1 is {a}.  The candidates br, cb, cr are infeasible yet all tie with the
strictly best score (worst case 1, average 1): the worker tie-break
`score == prev && !prev.could_be` then replaces an infeasible incumbent by any
later tying candidate, making the result depend on the partition of the
candidate pool among workers. -/
def cexPuzzle : Puzzle :=
  (guess (Puzzle.new cexDict 2) ['x','a'] [Hint.Absent, Hint.Correct]).1

/-- A solved one-letter puzzle over the dictionary {a}. -/
def solvedPz : Puzzle := Puzzle.new [[0]] 1

/-- An inconsistent puzzle: with an empty dictionary the initial reduce
intersects the full slot with an empty mask, leaving an empty slot. -/
def emptyPz : Puzzle := Puzzle.new [] 1

set_option maxRecDepth 200000

theorem all_zip_mem_iff (ss : List Slot) : ∀ (w : Word), w.length = ss.length →
    ((((ss.zip w).all fun sc => decide (sc.2 ∈ sc.1)) = true) ↔
      ∀ i (h : i < w.length), w.get ⟨i, h⟩ ∈ ss.getD i ∅) := by
  induction ss with
  | nil =>
    intro w hw
    cases w with
    | nil => simp
    | cons c cs => simp at hw
  | cons s ss ih =>
    intro w hw
    cases w with
    | nil => simp at hw
    | cons c cs =>
      simp only [List.zip_cons_cons, List.all_cons, Bool.and_eq_true, decide_eq_true_eq]
      rw [ih cs (by simpa using hw)]
      constructor
      · rintro ⟨h0, hrest⟩ i hi
        cases i with
        | zero => simpa using h0
        | succ i' => simpa using hrest i' (by simpa using hi)
      · intro hall
        exact ⟨by simpa using hall 0 (by simp), fun i hi => by
          simpa using hall (i + 1) (by simpa using hi)⟩

/-- Claim C1, corrected.  `could_be` accepts a word iff every letter is
admitted by its slot and every letter with a nonzero occurrence count in the
word occurs within its (min, max) range: letters absent from the word are
exempt from the range check (the `occ != 0 &&` guard in lib.rs line 205), so
a zero-occurrence letter whose minimum bound is positive does not make the
word infeasible. -/
theorem couldBe_iff (p : Puzzle) (w : Word) (hlen : w.length = p.slots.length) :
    couldBe p w = true ↔
      ((∀ i (h : i < w.length), w.get ⟨i, h⟩ ∈ p.slots.getD i ∅) ∧
        ∀ l, l < 26 → w.count l = 0 ∨
          ((p.letterCounts l).1 ≤ w.count l ∧ w.count l ≤ (p.letterCounts l).2)) := by
  unfold couldBe
  rw [Bool.and_eq_true, all_zip_mem_iff p.slots w hlen,
    List.map_snd_zip p.slots w (le_of_eq hlen)]
  simp only [List.all_eq_true, List.mem_range, Bool.or_eq_true, beq_iff_eq,
    Bool.and_eq_true, decide_eq_true_eq]

theorem couldBe_iff_witness :
    (([1] : Word).length = pzB.slots.length) ∧
      (couldBe pzB [1] = true ↔
        ((∀ i (h : i < ([1] : Word).length), ([1] : Word).get ⟨i, h⟩ ∈ pzB.slots.getD i ∅) ∧
          ∀ l, l < 26 → ([1] : Word).count l = 0 ∨
            ((pzB.letterCounts l).1 ≤ ([1] : Word).count l ∧
              ([1] : Word).count l ≤ (pzB.letterCounts l).2))) :=
  ⟨by decide, couldBe_iff pzB [1] (by decide)⟩

/-- Counterexample to claim C1 as stated: in the reachable state `pzB` the
letter a has minimum occurrence bound 1, the word "b" contains zero a's and
hence violates the claimed per-letter range condition, yet `could_be`
returns true. -/
theorem couldBe_claim_cex :
    couldBe pzB [1] = true ∧
      ¬ (∀ l, l < 26 →
        ((pzB.letterCounts l).1 ≤ ([1] : Word).count l ∧
          ([1] : Word).count l ≤ (pzB.letterCounts l).2)) := by decide

/-- Claim C7: on a solved state (every slot a singleton), `best_guess`
returns the word spelled by the singleton slots with worst case 0 and average
case 0.0, for every thread partition (in particular without consulting any
candidate: the `parts` argument is arbitrary). -/
theorem bestGuess_solved (p : Puzzle) (parts : List (List Word))
    (hsolved : ∀ s ∈ p.slots, s.card = 1) :
    bestGuessWith p parts = .ok (p.slots.map iterFirst, 0, 0) := by
  have h1 : (p.slots.any fun s => decide (s = ∅)) = false := by
    rw [List.any_eq_false]
    intro s hs
    simp only [decide_eq_true_eq]
    intro hemp
    have := hsolved s hs
    rw [hemp] at this
    simp at this
  have h2 : (p.slots.all fun s => decide (s.card = 1)) = true := by
    rw [List.all_eq_true]
    intro s hs
    simpa using hsolved s hs
  simp [bestGuessWith, h1, h2]

theorem bestGuess_solved_witness :
    (∀ s ∈ solvedPz.slots, s.card = 1) ∧
      bestGuessWith solvedPz [] = .ok (solvedPz.slots.map iterFirst, 0, 0) :=
  ⟨by decide, bestGuess_solved solvedPz [] (by decide)⟩

/-- Claim C8: with any empty slot, `best_guess` returns `Inconsistent` as a
normal value (the embedding is total, so no panic is modelled), and `guess`
itself can only report the three validation errors, never an inconsistency. -/
theorem bestGuess_inconsistent (p : Puzzle) (parts : List (List Word))
    (hempty : ∃ s ∈ p.slots, s = ∅) :
    bestGuessWith p parts = .error .Inconsistent ∧
      ∀ (q : Puzzle) (w : List Char) (ht : List Hint) (e : GuessError),
        (guess q w ht).2 = some e →
        e = .WrongHintLen ∨ e = .WrongWordLen ∨ e = .NotLowerAlpha := by
  constructor
  · have h1 : (p.slots.any fun s => decide (s = ∅)) = true := by
      rw [List.any_eq_true]
      rcases hempty with ⟨s, hs, hemp⟩
      exact ⟨s, hs, by simpa using hemp⟩
    simp [bestGuessWith, h1]
  · intro q w ht e _
    cases e
    · exact Or.inl rfl
    · exact Or.inr (Or.inl rfl)
    · exact Or.inr (Or.inr rfl)

theorem bestGuess_inconsistent_witness :
    (∃ s ∈ emptyPz.slots, s = ∅) ∧
      bestGuessWith emptyPz [[]] = .error .Inconsistent :=
  ⟨by decide, (bestGuess_inconsistent emptyPz [[]] (by decide)).1⟩

/-- Claim C10: whenever `guess` reports an error (non-lowercase word, wrong
word length, or wrong hint length), the returned state is the input state,
unchanged in every component (slots, counts, and both word caches). -/
theorem guess_error_unchanged (p : Puzzle) (w : List Char) (ht : List Hint)
    (herr : (guess p w ht).2.isSome) : (guess p w ht).1 = p := by
  unfold guess at *
  cases hcw : checkWord p.slots.length w with
  | some e => rfl
  | none =>
    rw [hcw] at herr
    dsimp only at herr ⊢
    by_cases hlen : (normalize w).length ≠ ht.length
    · rw [if_pos hlen]
    · rw [if_neg hlen] at herr
      simp at herr

theorem guess_error_unchanged_witness :
    ((guess solvedPz ['a'] []).2.isSome = true) ∧ (guess solvedPz ['a'] []).1 = solvedPz :=
  ⟨by decide, guess_error_unchanged solvedPz ['a'] [] (by decide)⟩

/-- Refutation of claim C2 (and witness of the underlying code bug): on the
reachable state `cexPuzzle`, `best_guess` run on a single thread (one worker
holding the whole candidate pool) returns the word "cr", while the same
search under the schedule that hands each candidate to its own worker
returns "br".  The thread count (equivalently, the partition of candidates
among workers) changes the result, contradicting the documented
determinism. -/
theorem bestGuess_partition_dependent :
    bestGuessWith cexPuzzle [cexDict] = .ok ([2, 17], 1, 1) ∧
      bestGuessWith cexPuzzle (cexDict.map fun w => [w]) = .ok ([1, 17], 1, 1) ∧
      ([2, 17] : Word) ≠ [1, 17] := by
  refine ⟨by decide, by decide, by decide⟩

/-- Refutation of claim C3 (and witness of the underlying code bug): on
`cexPuzzle` the candidates "br" = [1,17] and "cr" = [2,17] both score
(worst 1, sum 6 over 6 possible patterns, so average 1.0), neither is
feasible, and "br" precedes "cr" lexicographically — yet single-threaded
`best_guess` returns "cr", not the lexicographically least tied candidate,
because the worker replace rule `score == prev && !prev.could_be` prefers the
later of two tying infeasible candidates.  This contradicts the function's
own documentation ("further ties are broken by taking the first word in the
lexicographic ordering"). -/
theorem bestGuess_tie_break_violation :
    bestGuessWith cexPuzzle [cexDict] = .ok ([2, 17], 1, 1) ∧
      evalCand cexPuzzle [1, 17] none = some (1, 6, 6) ∧
      evalCand cexPuzzle [2, 17] none = some (1, 6, 6) ∧
      couldBe cexPuzzle [1, 17] = false ∧
      couldBe cexPuzzle [2, 17] = false ∧
      wordLt [1, 17] [2, 17] = true := by
  refine ⟨by decide, by decide, by decide, by decide, by decide, by decide⟩

theorem reduceFuel_letterCounts (n : Nat) : ∀ p : Puzzle,
    (reduceFuel n p).letterCounts = p.letterCounts := by
  induction n with
  | zero => intro p; rfl
  | succ n' ih =>
    intro p
    rw [reduceFuel]
    split
    · rfl
    · exact ih (reducePass p)

theorem reduceItersFuel_le (n : Nat) : ∀ p : Puzzle,
    reduceItersFuel n p ≤ slotsSize p.slots + 1 := by
  induction n with
  | zero => intro p; exact Nat.zero_le _
  | succ n' ih =>
    intro p
    rw [reduceItersFuel]
    split
    · omega
    · next hne =>
      have h1 := ih (reducePass p)
      have h2 := reducePass_size_lt p hne
      omega

theorem slotsSize_le_mul (ss : List Slot) (h : ∀ s ∈ ss, s ⊆ Finset.range 26) :
    slotsSize ss ≤ 26 * ss.length := by
  induction ss with
  | nil => simp [slotsSize]
  | cons s t ih =>
    have hs : s.card ≤ 26 := by
      calc s.card ≤ (Finset.range 26).card :=
            Finset.card_le_card (h s (List.mem_cons_self _ _))
        _ = 26 := Finset.card_range 26
    have ht := ih fun x hx => h x (List.mem_cons_of_mem _ hx)
    simp only [slotsSize, List.map_cons, List.sum_cons, List.length_cons] at *
    omega

/-- Claim C9: the `reduce` loop of the Rust code terminates.  Every pass that
continues the loop strictly shrinks the total number of admitted letters
(third conjunct), the letter count ranges are never modified inside `reduce`
(first conjunct), and when each of the L slots holds at most 26 letters the
loop performs at most L * 26 shrinking passes plus one final pass (second
conjunct). -/
theorem reduce_terminates (p : Puzzle) (hsub : ∀ s ∈ p.slots, s ⊆ Finset.range 26) :
    (reduce p).letterCounts = p.letterCounts ∧
      reduceIters p ≤ 26 * p.slots.length + 1 ∧
      ∀ q : Puzzle, (reducePass q).slots ≠ q.slots →
        slotsSize (reducePass q).slots < slotsSize q.slots := by
  refine ⟨reduceFuel_letterCounts _ p, ?_, fun q hq => reducePass_size_lt q hq⟩
  calc reduceIters p ≤ slotsSize p.slots + 1 := reduceItersFuel_le _ p
    _ ≤ 26 * p.slots.length + 1 := by
        have := slotsSize_le_mul p.slots hsub
        omega

theorem reduce_terminates_witness :
    (∀ s ∈ cexPuzzle.slots, s ⊆ Finset.range 26) ∧
      reduceIters cexPuzzle ≤ 26 * cexPuzzle.slots.length + 1 :=
  ⟨by decide, (reduce_terminates cexPuzzle (by decide)).2.1⟩

/-- Well-formedness of the feasible-word cache: every cached word has the
puzzle's length and its letters lie within the corresponding slots.  This
holds for every state the Rust code can construct (`Puzzle::new` establishes
it, and the reduce at the end of every update refilters the cache against the
final slots). -/
def WF (p : Puzzle) : Prop :=
  ∀ w ∈ p.feasibleWords,
    w.length = p.slots.length ∧ ∀ i (h : i < w.length), w.get ⟨i, h⟩ ∈ p.slots.getD i ∅

instance (p : Puzzle) : Decidable (WF p) := by
  unfold WF
  infer_instance

theorem mem_insertWord_getD (ms : List Slot) : ∀ (w : Word) (i : Nat) (c : Nat),
    c ∈ (insertWord ms w).getD i ∅ ↔
      (c ∈ ms.getD i ∅ ∨ ∃ h : i < w.length, w.get ⟨i, h⟩ = c ∧ i < ms.length) := by
  induction ms with
  | nil =>
    intro w i c
    cases w with
    | nil => simp [insertWord]
    | cons cw wt => simp [insertWord]
  | cons m mt ih =>
    intro w i c
    cases w with
    | nil => simp [insertWord]
    | cons cw wt =>
      cases i with
      | zero =>
        simp only [insertWord, List.getD_cons_zero, Finset.mem_insert, List.length_cons]
        constructor
        · rintro (rfl | hm)
          · exact Or.inr ⟨by omega, rfl, by omega⟩
          · exact Or.inl hm
        · rintro (hm | ⟨h, rfl, _⟩)
          · exact Or.inr hm
          · exact Or.inl rfl
      | succ i' =>
        simp only [insertWord, List.getD_cons_succ, List.length_cons, ih wt i' c]
        constructor
        · rintro (hm | ⟨h, hget, hlt⟩)
          · exact Or.inl hm
          · exact Or.inr ⟨by omega, by simpa using hget, by omega⟩
        · rintro (hm | ⟨h, hget, hlt⟩)
          · exact Or.inl hm
          · exact Or.inr ⟨by omega, by simpa using hget, by omega⟩

theorem mem_foldl_insertWord (ws : List Word) : ∀ (acc : List Slot) (i c : Nat),
    c ∈ (ws.foldl insertWord acc).getD i ∅ →
      c ∈ acc.getD i ∅ ∨ ∃ w ∈ ws, ∃ h : i < w.length, w.get ⟨i, h⟩ = c := by
  induction ws with
  | nil => intro acc i c hc; exact Or.inl hc
  | cons w ws ih =>
    intro acc i c hc
    rw [List.foldl_cons] at hc
    rcases ih (insertWord acc w) i c hc with hacc | ⟨w', hw', h, hget⟩
    · rcases (mem_insertWord_getD acc w i c).1 hacc with hm | ⟨h, hget, _⟩
      · exact Or.inl hm
      · exact Or.inr ⟨w, List.mem_cons_self _ _, h, hget⟩
    · exact Or.inr ⟨w', List.mem_cons_of_mem _ hw', h, hget⟩

theorem mem_masksOf (n : Nat) (ws : List Word) (i c : Nat)
    (hc : c ∈ (masksOf n ws).getD i ∅) :
    ∃ w ∈ ws, ∃ h : i < w.length, w.get ⟨i, h⟩ = c := by
  rcases mem_foldl_insertWord ws (List.replicate n ∅) i c hc with hacc | hfound
  · exfalso
    rcases Nat.lt_or_ge i n with hin | hin
    · rw [List.getD_eq_getElem?_getD, List.getElem?_replicate, if_pos hin] at hacc
      simp at hacc
    · rw [List.getD_eq_getElem?_getD, List.getElem?_eq_none (by simpa using hin)] at hacc
      simp at hacc
  · exact hfound

theorem zipWith_inter_getD_subset_right (s m : List Slot) (j : Nat) :
    (List.zipWith (fun a b => a ∩ b) s m).getD j ∅ ⊆ m.getD j ∅ := by
  induction s generalizing m j with
  | nil => simp
  | cons h t ih =>
    cases m with
    | nil => simp
    | cons hm tm =>
      cases j with
      | zero => simpa using Finset.inter_subset_right
      | succ j' => simpa using ih tm j'

theorem reducePass_slots_getD_subset_mask (p : Puzzle) (i : Nat) :
    (reducePass p).slots.getD i ∅ ⊆
      (masksOf p.slots.length (p.feasibleWords.filter fun w => couldBe p w)).getD i ∅ := by
  simp only [reducePass]
  exact (forcing_getD_subset _ _ i).trans (zipWith_inter_getD_subset_right _ _ i)

theorem reduceFuel_slots_getD_subset (n : Nat) : ∀ (p : Puzzle) (i : Nat),
    (reduceFuel n p).slots.getD i ∅ ⊆ p.slots.getD i ∅ := by
  induction n with
  | zero => intro p i; exact Finset.Subset.refl _
  | succ n' ih =>
    intro p i
    rw [reduceFuel]
    split
    · exact reducePass_slots_getD_subset p i
    · exact (ih (reducePass p) i).trans (reducePass_slots_getD_subset p i)

theorem reduce_slots_getD_subset_pass (p : Puzzle) (i : Nat) :
    (reduce p).slots.getD i ∅ ⊆ (reducePass p).slots.getD i ∅ := by
  show (reduceFuel (slotsSize p.slots + 1) p).slots.getD i ∅ ⊆ _
  rw [reduceFuel]
  split
  · exact Finset.Subset.refl _
  · exact reduceFuel_slots_getD_subset _ (reducePass p) i

theorem foldGuess_cache (entries : List Entry) : ∀ st : Nat × Nat × Puzzle,
    ((entries.foldl guessStep st).2.2).feasibleWords = st.2.2.feasibleWords ∧
      ((entries.foldl guessStep st).2.2).slots.length = st.2.2.slots.length := by
  induction entries with
  | nil => intro st; exact ⟨rfl, rfl⟩
  | cons e rest ih =>
    intro st
    rw [List.foldl_cons]
    refine ⟨((ih (guessStep st e)).1).trans ?_, ((ih (guessStep st e)).2).trans ?_⟩
    · rcases st with ⟨pc, idx, q⟩
      rcases e with ⟨i, ch, h⟩
      cases h <;> rfl
    · rcases st with ⟨pc, idx, q⟩
      rcases e with ⟨i, ch, h⟩
      cases h
      · simp [guessStep]
      · simp [guessStep]
      · simp only [guessStep]
        split <;> first | (split <;> simp) | simp

theorem foldGuess_counts_mono (entries : List Entry) : ∀ (st : Nat × Nat × Puzzle) (l : Nat),
    (st.2.2.letterCounts l).1 ≤ (((entries.foldl guessStep st).2.2).letterCounts l).1 ∧
      (((entries.foldl guessStep st).2.2).letterCounts l).2 ≤ (st.2.2.letterCounts l).2 := by
  induction entries with
  | nil => intro st l; exact ⟨Nat.le_refl _, Nat.le_refl _⟩
  | cons e rest ih =>
    intro st l
    rw [List.foldl_cons]
    have hstep : (st.2.2.letterCounts l).1 ≤ ((guessStep st e).2.2.letterCounts l).1 ∧
        ((guessStep st e).2.2.letterCounts l).2 ≤ (st.2.2.letterCounts l).2 := by
      rcases st with ⟨pc, idx, q⟩
      rcases e with ⟨i, ch, h⟩
      cases h
      · dsimp only [guessStep]
        by_cases hl : l = ch
        · subst hl
          rw [Function.update_same]
          exact ⟨le_max_left _ _, Nat.le_refl _⟩
        · rw [Function.update_noteq hl]
          exact ⟨Nat.le_refl _, Nat.le_refl _⟩
      · dsimp only [guessStep]
        by_cases hl : l = ch
        · subst hl
          rw [Function.update_same]
          exact ⟨le_max_left _ _, Nat.le_refl _⟩
        · rw [Function.update_noteq hl]
          exact ⟨Nat.le_refl _, Nat.le_refl _⟩
      · dsimp only [guessStep]
        by_cases hl : l = ch
        · subst hl
          rw [Function.update_same]
          exact ⟨Nat.le_refl _, min_le_left _ _⟩
        · rw [Function.update_noteq hl]
          exact ⟨Nat.le_refl _, Nat.le_refl _⟩
    have hrest := ih (guessStep st e) l
    exact ⟨hstep.1.trans hrest.1, hrest.2.trans hstep.2⟩

theorem reduce_letterCounts (q : Puzzle) : (reduce q).letterCounts = q.letterCounts :=
  reduceFuel_letterCounts _ q

theorem guessImpl_monotone (p : Puzzle) (wn : Word) (ht : List Hint) (hwf : WF p) :
    (∀ i, (guessImpl p wn ht).slots.getD i ∅ ⊆ p.slots.getD i ∅) ∧
      ∀ l, (p.letterCounts l).1 ≤ ((guessImpl p wn ht).letterCounts l).1 ∧
        ((guessImpl p wn ht).letterCounts l).2 ≤ (p.letterCounts l).2 := by
  constructor
  · intro i
    unfold guessImpl
    refine (reduce_slots_getD_subset_pass _ i).trans
      ((reducePass_slots_getD_subset_mask _ i).trans ?_)
    intro c hc
    rcases mem_masksOf _ _ i c hc with ⟨w', hw'f, h, hget⟩
    have hw'q := (List.mem_filter.1 hw'f).1
    rw [(foldGuess_cache (sortEntries (wn.zip ht).enum) (0, 0, p)).1] at hw'q
    rw [← hget]
    exact (hwf w' hw'q).2 i h
  · intro l
    unfold guessImpl
    rw [reduce_letterCounts]
    exact foldGuess_counts_mono _ (0, 0, p) l

theorem guess_state_cases (p : Puzzle) (w : List Char) (ht : List Hint) :
    (guess p w ht).1 = p ∨ (guess p w ht).1 = guessImpl p (normalize w) ht := by
  unfold guess
  cases checkWord p.slots.length w with
  | some e => exact Or.inl rfl
  | none =>
    dsimp only
    split
    · exact Or.inl rfl
    · exact Or.inr (by dsimp only)

/-- Claim C5: monotonicity of `guess`.  For a well-formed state, after any
`guess` call (successful or not, with any hint pattern, including ones
inconsistent with the prior state) every slot is a subset of its pre-call
value and every letter's (min, max) occurrence range is contained in its
pre-call range. -/
theorem guess_monotone (p : Puzzle) (w : List Char) (ht : List Hint) (hwf : WF p) :
    (∀ i, (guess p w ht).1.slots.getD i ∅ ⊆ p.slots.getD i ∅) ∧
      ∀ l, (p.letterCounts l).1 ≤ ((guess p w ht).1.letterCounts l).1 ∧
        ((guess p w ht).1.letterCounts l).2 ≤ (p.letterCounts l).2 := by
  rcases guess_state_cases p w ht with h | h <;> rw [h]
  · exact ⟨fun i => Finset.Subset.refl _, fun l => ⟨Nat.le_refl _, Nat.le_refl _⟩⟩
  · exact guessImpl_monotone p (normalize w) ht hwf

/-- Number of positions in a (guess, answer) pair list at which letter `l`
matches exactly. -/
def matchCount (l : Nat) (s : List (Nat × Nat)) : Nat :=
  s.countP fun gp => decide (gp.1 = gp.2) && decide (gp.1 = l)

theorem matchCount_cons (l g a : Nat) (t : List (Nat × Nat)) :
    matchCount l ((g, a) :: t) =
      matchCount l t + if g = a ∧ g = l then 1 else 0 := by
  by_cases h : g = a ∧ g = l
  · obtain ⟨h1, h2⟩ := h
    subst h1
    subst h2
    simp [matchCount, List.countP_cons]
  · simp only [matchCount, List.countP_cons]
    rw [if_neg h, if_neg (by simpa using h)]

theorem hintPass1_cons (f : Nat → Nat) (g a : Nat) (t : List (Nat × Nat)) :
    hintPass1 f ((g, a) :: t) = hintPass1 (if g = a then dropCount f g else f) t := rfl

theorem buildCounts_aux (xs : List Nat) : ∀ (f : Nat → Nat) (l : Nat),
    (xs.foldl (fun f ch => Function.update f ch (f ch + 1)) f) l = f l + xs.count l := by
  induction xs with
  | nil => intro f l; simp
  | cons x t ih =>
    intro f l
    rw [List.foldl_cons, ih, List.count_cons]
    by_cases hl : l = x
    · subst hl
      rw [Function.update_same, if_pos (by simp)]
      omega
    · rw [Function.update_noteq hl,
        if_neg (by simp only [beq_iff_eq]; exact fun hx => hl hx.symm)]
      omega

theorem buildCounts_eq (a : List Nat) (l : Nat) : buildCounts a l = a.count l := by
  unfold buildCounts
  rw [buildCounts_aux]
  simp

theorem matchCount_le_snd (l : Nat) (s : List (Nat × Nat)) :
    matchCount l s ≤ (s.map Prod.snd).count l := by
  induction s with
  | nil => simp [matchCount]
  | cons gp t ih =>
    rcases gp with ⟨g, a⟩
    rw [matchCount_cons, List.map_cons, List.count_cons]
    by_cases h : g = a ∧ g = l
    · obtain ⟨h1, h2⟩ := h
      subst h1
      subst h2
      rw [if_pos ⟨rfl, rfl⟩, if_pos (by simp)]
      omega
    · rw [if_neg h]
      split <;> omega

theorem hintPass1_eq (s : List (Nat × Nat)) : ∀ (f : Nat → Nat),
    (∀ l, matchCount l s ≤ f l) → ∀ l, hintPass1 f s l = f l - matchCount l s := by
  induction s with
  | nil => intro f _ l; simp [hintPass1, matchCount]
  | cons gp t ih =>
    intro f hf l
    rcases gp with ⟨g, a⟩
    rw [hintPass1_cons]
    by_cases hga : g = a
    · rw [if_pos hga]
      have hg1 : 1 ≤ f g := by
        have := hf g
        rw [matchCount_cons, if_pos ⟨hga, rfl⟩] at this
        omega
      have hdrop : dropCount f g = Function.update f g (f g - 1) := by
        rw [dropCount, if_pos (by omega)]
      rw [hdrop]
      have hrec := ih (Function.update f g (f g - 1)) (fun l' => by
        by_cases hl' : l' = g
        · subst hl'
          rw [Function.update_same]
          have := hf l'
          rw [matchCount_cons, if_pos ⟨hga, rfl⟩] at this
          omega
        · rw [Function.update_noteq hl']
          have := hf l'
          rw [matchCount_cons] at this
          omega)
      rw [hrec l]
      by_cases hl : l = g
      · subst hl
        rw [Function.update_same, matchCount_cons, if_pos ⟨hga, rfl⟩]
        have := hf l
        rw [matchCount_cons, if_pos ⟨hga, rfl⟩] at this
        omega
      · rw [Function.update_noteq hl, matchCount_cons,
          if_neg (show ¬(g = a ∧ g = l) from fun hc => hl hc.2.symm)]
        omega
    · rw [if_neg hga]
      have hrec := ih f (fun l' => by
        have := hf l'
        rw [matchCount_cons, if_neg (show ¬(g = a ∧ g = l') from fun hc => hga hc.1)] at this
        omega)
      rw [hrec l, matchCount_cons,
        if_neg (show ¬(g = a ∧ g = l) from fun hc => hga hc.1)]
      omega

theorem hintPass2_length (s : List (Nat × Nat)) : ∀ f : Nat → Nat,
    (hintPass2 f s).length = s.length := by
  induction s with
  | nil => intro f; rfl
  | cons gp t ih =>
    intro f
    rcases gp with ⟨g, a⟩
    rw [hintPass2]
    split
    · simp [ih]
    · split <;> simp [ih]

theorem hintPass2_correct_getD (s : List (Nat × Nat)) : ∀ (f : Nat → Nat) (i : Nat),
    i < s.length →
      ((hintPass2 f s).getD i Hint.Absent = Hint.Correct ↔
        (s.getD i (0, 0)).1 = (s.getD i (0, 0)).2) := by
  induction s with
  | nil => intro f i hi; simp at hi
  | cons gp t ih =>
    intro f i hi
    rcases gp with ⟨g, a⟩
    rw [hintPass2]
    cases i with
    | zero =>
      split
      · next hga => simpa using hga
      · next hga =>
        split <;> · simp only [List.getD_cons_zero]
                    constructor
                    · intro hc; cases hc
                    · intro hc; exact absurd hc hga
    | succ i' =>
      have hi' : i' < t.length := by simpa using hi
      split
      · simpa using ih f i' hi'
      · split
        · simpa using ih (Function.update f g (f g - 1)) i' hi'
        · simpa using ih f i' hi'

theorem hintPass2_cp_le (s : List (Nat × Nat)) : ∀ (f : Nat → Nat) (l : Nat),
    (((s.map Prod.fst).zip (hintPass2 f s)).countP
      fun gh => decide (gh.1 = l) && decide (gh.2 ≠ Hint.Absent)) ≤ f l + matchCount l s := by
  induction s with
  | nil => intro f l; simp [matchCount]
  | cons gp t ih =>
    intro f l
    rcases gp with ⟨g, a⟩
    rw [List.map_cons, hintPass2]
    split
    · next hga =>
      rw [List.zip_cons_cons, List.countP_cons, matchCount_cons]
      have hih := ih f l
      by_cases hgl : g = l
      · rw [if_pos (show g = a ∧ g = l from ⟨hga, hgl⟩),
          if_pos (show ((fun gh => decide (gh.1 = l) && decide (gh.2 ≠ Hint.Absent))
            ((g : Nat), Hint.Correct)) = true by simp [hgl])]
        omega
      · rw [if_neg (show ¬(g = a ∧ g = l) from fun hc => hgl hc.2),
          if_neg (show ¬(((fun gh => decide (gh.1 = l) && decide (gh.2 ≠ Hint.Absent))
            ((g : Nat), Hint.Correct)) = true) by simp [hgl])]
        omega
    · next hga =>
      split
      · next hfg =>
        rw [List.zip_cons_cons, List.countP_cons, matchCount_cons,
          if_neg (show ¬(g = a ∧ g = l) from fun hc => hga hc.1)]
        by_cases hgl : g = l
        · subst hgl
          have hih := ih (Function.update f g (f g - 1)) g
          rw [Function.update_same] at hih
          rw [if_pos (show ((fun gh => decide (gh.1 = g) && decide (gh.2 ≠ Hint.Absent))
            ((g : Nat), Hint.Present)) = true by simp)]
          omega
        · have hih := ih (Function.update f g (f g - 1)) l
          rw [Function.update_noteq (show l ≠ g from fun hc => hgl hc.symm)] at hih
          rw [if_neg (show ¬(((fun gh => decide (gh.1 = l) && decide (gh.2 ≠ Hint.Absent))
            ((g : Nat), Hint.Present)) = true) by simp [hgl])]
          omega
      · next hfg =>
        rw [List.zip_cons_cons, List.countP_cons, matchCount_cons,
          if_neg (show ¬(g = a ∧ g = l) from fun hc => hga hc.1),
          if_neg (show ¬(((fun gh => decide (gh.1 = l) && decide (gh.2 ≠ Hint.Absent))
            ((g : Nat), Hint.Absent)) = true) by simp)]
        have hih := ih f l
        omega

theorem checkWord_none (n : Nat) (w : List Char) (h : checkWord n w = none) :
    (∀ c ∈ w, isLowerAlpha c = true) ∧ w.length = n := by
  unfold checkWord at h
  cases hany : w.any fun c => !isLowerAlpha c with
  | true =>
    rw [if_pos hany] at h
    simp at h
  | false =>
    rw [if_neg (by simp [hany])] at h
    constructor
    · intro c hc
      simpa using List.any_eq_false.1 hany c hc
    · by_cases hlen : w.length ≠ n
      · rw [if_pos hlen] at h
        simp at h
      · omega

theorem normalize_length (w : List Char) : (normalize w).length = w.length := by
  simp [normalize]

theorem char_toNat_injective : Function.Injective Char.toNat :=
  StrictMono.injective fun _ _ h => h

theorem normalize_getD (w : List Char) (i : Nat) (h : i < w.length) :
    (normalize w).getD i 0 = (w.get ⟨i, h⟩).toNat - 97 := by
  unfold normalize
  rw [List.getD_eq_getElem?_getD, List.getElem?_map, List.getElem?_eq_getElem h]
  simp [List.get_eq_getElem]

theorem zip_getD (l1 : List Nat) : ∀ (l2 : List Nat) (i : Nat),
    i < l1.length → i < l2.length →
      (l1.zip l2).getD i (0, 0) = (l1.getD i 0, l2.getD i 0) := by
  induction l1 with
  | nil => intro l2 i h1 _; simp at h1
  | cons x t ih =>
    intro l2 i h1 h2
    cases l2 with
    | nil => simp at h2
    | cons y s =>
      cases i with
      | zero => simp
      | succ i' =>
        rw [List.zip_cons_cons]
        simpa using ih s i' (by simpa using h1) (by simpa using h2)

/-- Claim C6: for every valid pair accepted by `get_hint`, position i is
marked Correct iff the guess and answer agree at i, and for every letter the
number of positions marked Present or Correct for that letter is at most the
letter's occurrence count in the answer; in particular
get_hint("hello", "pogos") = [Absent, Absent, Absent, Absent, Present]. -/
theorem getHint_spec :
    (∀ (g a : List Char) (h : List Hint), getHint g a = .ok h →
      (∀ (i : Nat) (hig : i < g.length) (hia : i < a.length),
        (h.getD i Hint.Absent = Hint.Correct ↔ g.get ⟨i, hig⟩ = a.get ⟨i, hia⟩)) ∧
      ∀ l : Nat,
        (((normalize g).zip h).countP
          fun gh => decide (gh.1 = l) && decide (gh.2 ≠ Hint.Absent)) ≤
          (normalize a).count l) ∧
    getHint ['h', 'e', 'l', 'l', 'o'] ['p', 'o', 'g', 'o', 's'] =
      .ok [Hint.Absent, Hint.Absent, Hint.Absent, Hint.Absent, Hint.Present] := by
  constructor
  · intro g a h hok
    unfold getHint at hok
    cases hca : checkWord a.length a with
    | some e => rw [hca] at hok; cases hok
    | none =>
      rw [hca] at hok
      cases hcg : checkWord a.length g with
      | some e => rw [hcg] at hok; cases hok
      | none =>
        rw [hcg] at hok
        cases hok
        rcases checkWord_none _ _ hca with ⟨halpha, _⟩
        rcases checkWord_none _ _ hcg with ⟨galpha, glen⟩
        have hnglen : (normalize g).length = (normalize a).length := by
          rw [normalize_length, normalize_length, glen]
        have hslen : ((normalize g).zip (normalize a)).length = g.length := by
          rw [List.length_zip, normalize_length, normalize_length, glen]
          exact Nat.min_self _
        constructor
        · intro i hig hia
          unfold getHintCore
          have hi : i < ((normalize g).zip (normalize a)).length := by omega
          rw [hintPass2_correct_getD _ _ i hi,
            zip_getD _ _ i (by rw [normalize_length]; exact hig)
              (by rw [normalize_length]; exact hia)]
          dsimp only
          rw [normalize_getD g i hig, normalize_getD a i hia]
          constructor
          · intro hnorm
            refine char_toNat_injective ?_
            have hb1 : 97 ≤ (g.get ⟨i, hig⟩).toNat := by
              have := galpha (g.get ⟨i, hig⟩) (List.get_mem g i hig)
              simp only [isLowerAlpha, Bool.and_eq_true, decide_eq_true_eq] at this
              exact this.1
            have hb2 : 97 ≤ (a.get ⟨i, hia⟩).toNat := by
              have := halpha (a.get ⟨i, hia⟩) (List.get_mem a i hia)
              simp only [isLowerAlpha, Bool.and_eq_true, decide_eq_true_eq] at this
              exact this.1
            omega
          · intro hchar
            rw [hchar]
        · intro l
          unfold getHintCore
          have hmc : ∀ l', matchCount l' ((normalize g).zip (normalize a)) ≤
              buildCounts (normalize a) l' := by
            intro l'
            rw [buildCounts_eq]
            calc matchCount l' ((normalize g).zip (normalize a)) ≤
                ((((normalize g).zip (normalize a)).map Prod.snd)).count l' :=
                  matchCount_le_snd _ _
              _ = (normalize a).count l' := by
                  rw [List.map_snd_zip _ _ (le_of_eq hnglen.symm)]
          have hcp := hintPass2_cp_le ((normalize g).zip (normalize a))
            (hintPass1 (buildCounts (normalize a)) ((normalize g).zip (normalize a))) l
          rw [List.map_fst_zip _ _ (le_of_eq hnglen)] at hcp
          rw [hintPass1_eq _ _ hmc l] at hcp
          have hble := hmc l
          rw [buildCounts_eq] at hble
          rw [buildCounts_eq] at hcp
          omega
  · decide

theorem getHint_spec_witness :
    (getHint ['h', 'e', 'l', 'l', 'o'] ['p', 'o', 'g', 'o', 's'] =
      .ok [Hint.Absent, Hint.Absent, Hint.Absent, Hint.Absent, Hint.Present]) ∧
    ((([Hint.Absent, Hint.Absent, Hint.Absent, Hint.Absent, Hint.Present] :
        List Hint).getD 4 Hint.Absent = Hint.Correct) ↔
      (['h', 'e', 'l', 'l', 'o'] : List Char).get ⟨4, by decide⟩ =
        (['p', 'o', 'g', 'o', 's'] : List Char).get ⟨4, by decide⟩) ∧
    (((normalize ['h', 'e', 'l', 'l', 'o']).zip
        [Hint.Absent, Hint.Absent, Hint.Absent, Hint.Absent, Hint.Present]).countP
      fun gh => decide (gh.1 = 14) && decide (gh.2 ≠ Hint.Absent)) ≤
      (normalize ['p', 'o', 'g', 'o', 's']).count 14 :=
  ⟨by decide,
    (getHint_spec.1 ['h', 'e', 'l', 'l', 'o'] ['p', 'o', 'g', 'o', 's'] _
      (by decide)).1 4 (by decide) (by decide),
    (getHint_spec.1 ['h', 'e', 'l', 'l', 'o'] ['p', 'o', 'g', 'o', 's'] _
      (by decide)).2 14⟩

/-- Counterexample to claim C4 as stated: from the fresh "b" puzzle, the
successful guesses "a"/Absent (capping letter a's maximum at 0) followed by
"a"/Present (raising letter a's minimum to 1) produce a reachable state with
min > max for letter a.  Both guesses succeed, so the invariant does not hold
for arbitrary (inconsistent) hint sequences.  No slot empties either: the
state is [{b}]. -/
theorem min_gt_max_reachable :
    (guess (Puzzle.new dictB 1) ['a'] [Hint.Absent]).2 = none ∧
      (guess (guess (Puzzle.new dictB 1) ['a'] [Hint.Absent]).1 ['a'] [Hint.Present]).2 =
        none ∧
      (pzB2.letterCounts 0).2 < (pzB2.letterCounts 0).1 := by
  refine ⟨by decide, by decide, by decide⟩

/-- Number of Correct-or-Present entries for letter `l` in a sorted-walk
entry list. -/
def cpCount (l : Nat) (es : List Entry) : Nat :=
  es.countP fun e => decide (e.2.1 = l) && decide (e.2.2 ≠ Hint.Absent)

/-- Number of Absent entries for letter `l` in a sorted-walk entry list. -/
def absCount (l : Nat) (es : List Entry) : Nat :=
  es.countP fun e => decide (e.2.1 = l) && decide (e.2.2 = Hint.Absent)

theorem cpCount_cons (l : Nat) (i ch : Nat) (h : Hint) (t : List Entry) :
    cpCount l ((i, ch, h) :: t) =
      cpCount l t + if ch = l ∧ h ≠ Hint.Absent then 1 else 0 := by
  by_cases hc : ch = l ∧ h ≠ Hint.Absent
  · simp only [cpCount, List.countP_cons]
    rw [if_pos hc, if_pos (by simp [hc.1, hc.2])]
  · simp only [cpCount, List.countP_cons]
    rw [if_neg hc, if_neg (by simpa using hc)]

theorem absCount_cons (l : Nat) (i ch : Nat) (h : Hint) (t : List Entry) :
    absCount l ((i, ch, h) :: t) =
      absCount l t + if ch = l ∧ h = Hint.Absent then 1 else 0 := by
  by_cases hc : ch = l ∧ h = Hint.Absent
  · simp only [absCount, List.countP_cons]
    rw [if_pos hc, if_pos (by simp [hc.1, hc.2])]
  · simp only [absCount, List.countP_cons]
    rw [if_neg hc, if_neg (by simpa using hc)]

theorem keyLe_letter_le {e1 e2 : Entry} (h : keyLe e1 e2) : e1.2.1 ≤ e2.2.1 := by
  rcases h with h | ⟨heq, _⟩
  · omega
  · omega

theorem keyLe_rank_le {e1 e2 : Entry} (h : keyLe e1 e2) (heq : e1.2.1 = e2.2.1) :
    hintRank e1.2.2 ≤ hintRank e2.2.2 := by
  rcases h with h | ⟨_, h | ⟨hr, _⟩⟩
  · omega
  · omega
  · omega

theorem absent_of_rank_ge (h : Hint) (hr : 2 ≤ hintRank h) : h = Hint.Absent := by
  cases h
  · simp [hintRank] at hr
  · simp [hintRank] at hr
  · rfl

/-- The occurrence-index contract of a sorted-walk entry list against the
answer's per-letter occurrence counts `ca`: replaying the prev-char/occ-idx
protocol of `guess_impl`, every Correct or Present entry for a letter at
occurrence index j demands j + 1 ≤ ca, and every Absent entry demands
ca ≤ j. -/
def okWalk (ca : Nat → Nat) : Nat → Nat → List Entry → Prop
  | _, _, [] => True
  | pc, idx, (_, ch, h) :: t =>
    ((h ≠ Hint.Absent → (if ch = pc then idx else 0) + 1 ≤ ca ch) ∧
      (h = Hint.Absent → ca ch ≤ (if ch = pc then idx else 0))) ∧
      okWalk ca ch ((if ch = pc then idx else 0) + 1) t

theorem okWalk_of_sorted (ca : Nat → Nat) :
    ∀ (es : List Entry), List.Pairwise keyLe es →
      ∀ (pc idx : Nat),
        (∀ l, l ≠ pc → cpCount l es ≤ ca l ∧ (absCount l es ≠ 0 → ca l ≤ cpCount l es)) →
        ((idx + cpCount pc es ≤ ca pc ∧
            (absCount pc es ≠ 0 → ca pc ≤ idx + cpCount pc es)) ∨
          (ca pc ≤ idx ∧ cpCount pc es = 0)) →
        (∀ e ∈ es, pc ≤ e.2.1) →
        okWalk ca pc idx es := by
  intro es
  induction es with
  | nil => intro _ pc idx _ _ _; trivial
  | cons e t ih =>
    intro hpw pc idx h1 h2 h3
    rcases e with ⟨i, ch, h⟩
    have hrel : ∀ e' ∈ t, keyLe (i, ch, h) e' := (List.pairwise_cons.1 hpw).1
    have hpw' : List.Pairwise keyLe t := (List.pairwise_cons.1 hpw).2
    have htail_le : ∀ e' ∈ t, ch ≤ e'.2.1 := fun e' he' => keyLe_letter_le (hrel e' he')
    have hcpt_abs : h = Hint.Absent → cpCount ch t = 0 := by
      intro hA
      unfold cpCount
      rw [List.countP_eq_zero]
      intro e' he'
      simp only [Bool.and_eq_true, decide_eq_true_eq, not_and, not_not]
      intro hl
      have hrank := keyLe_rank_le (hrel e' he') (by rw [hl])
      rw [hA] at hrank
      exact absent_of_rank_ge _ hrank
    rw [okWalk]
    by_cases hpc : ch = pc
    · rw [if_pos hpc]
      subst hpc
      have hca_le : h = Hint.Absent → ca ch ≤ idx := by
        intro hA
        rcases h2 with ⟨_, himp⟩ | ⟨hca, _⟩
        · have habs : absCount ch ((i, ch, h) :: t) ≠ 0 := by
            rw [absCount_cons, if_pos ⟨rfl, hA⟩]
            omega
          have hle := himp habs
          rw [cpCount_cons, if_neg (fun hc => hc.2 hA)] at hle
          have := hcpt_abs hA
          omega
        · exact hca
      refine ⟨⟨?_, hca_le⟩, ?_⟩
      · intro hA
        rcases h2 with ⟨hle, _⟩ | ⟨_, hcp0⟩
        · rw [cpCount_cons, if_pos ⟨rfl, hA⟩] at hle
          omega
        · rw [cpCount_cons, if_pos ⟨rfl, hA⟩] at hcp0
          omega
      · apply ih hpw'
        · intro l hl
          have hthis := h1 l hl
          rw [cpCount_cons, if_neg (fun hc => hl hc.1.symm)] at hthis
          rw [absCount_cons, if_neg (fun hc => hl hc.1.symm)] at hthis
          refine ⟨by omega, fun habs => ?_⟩
          have := hthis.2 (by omega)
          omega
        · by_cases hA : h = Hint.Absent
          · exact Or.inr ⟨by have := hca_le hA; omega, hcpt_abs hA⟩
          · left
            rcases h2 with ⟨hle, himp⟩ | ⟨_, hcp0⟩
            · rw [cpCount_cons, if_pos ⟨rfl, hA⟩] at hle
              refine ⟨by omega, fun habs => ?_⟩
              have habs' : absCount ch ((i, ch, h) :: t) ≠ 0 := by
                rw [absCount_cons]
                omega
              have := himp habs'
              rw [cpCount_cons, if_pos ⟨rfl, hA⟩] at this
              omega
            · rw [cpCount_cons, if_pos ⟨rfl, hA⟩] at hcp0
              omega
        · exact htail_le
    · rw [if_neg hpc]
      have hhead_le : pc ≤ ch := h3 (i, ch, h) (List.mem_cons_self _ _)
      have hpc_lt : pc < ch := lt_of_le_of_ne hhead_le (fun heq => hpc heq.symm)
      have h1ch := h1 ch hpc
      have hnopc : ∀ e' ∈ t, pc < e'.2.1 := fun e' he' =>
        lt_of_lt_of_le hpc_lt (htail_le e' he')
      refine ⟨⟨?_, ?_⟩, ?_⟩
      · intro hA
        have := h1ch.1
        rw [cpCount_cons, if_pos ⟨rfl, hA⟩] at this
        omega
      · intro hA
        have habs : absCount ch ((i, ch, h) :: t) ≠ 0 := by
          rw [absCount_cons, if_pos ⟨rfl, hA⟩]
          omega
        have hle := h1ch.2 habs
        rw [cpCount_cons, if_neg (fun hc => hc.2 hA)] at hle
        have := hcpt_abs hA
        omega
      · apply ih hpw'
        · intro l hl
          by_cases hlpc : l = pc
          · subst hlpc
            have hcp0 : cpCount l t = 0 := by
              unfold cpCount
              rw [List.countP_eq_zero]
              intro e' he'
              simp only [Bool.and_eq_true, decide_eq_true_eq, not_and]
              intro hl'
              exact absurd hl' (by have := hnopc e' he'; omega)
            have habs0 : absCount l t = 0 := by
              unfold absCount
              rw [List.countP_eq_zero]
              intro e' he'
              simp only [Bool.and_eq_true, decide_eq_true_eq, not_and]
              intro hl'
              exact absurd hl' (by have := hnopc e' he'; omega)
            exact ⟨by omega, fun habs => absurd habs0 habs⟩
          · have hthis := h1 l hlpc
            rw [cpCount_cons, if_neg (fun hc => hl hc.1.symm)] at hthis
            rw [absCount_cons, if_neg (fun hc => hl hc.1.symm)] at hthis
            refine ⟨by omega, fun habs => ?_⟩
            have := hthis.2 (by omega)
            omega
        · by_cases hA : h = Hint.Absent
          · right
            constructor
            · have habs : absCount ch ((i, ch, h) :: t) ≠ 0 := by
                rw [absCount_cons, if_pos ⟨rfl, hA⟩]
                omega
              have hle := h1ch.2 habs
              rw [cpCount_cons, if_neg (fun hc => hc.2 hA)] at hle
              have := hcpt_abs hA
              omega
            · exact hcpt_abs hA
          · left
            have hle := h1ch.1
            rw [cpCount_cons, if_pos ⟨rfl, hA⟩] at hle
            refine ⟨by omega, fun habs => ?_⟩
            have habs' : absCount ch ((i, ch, h) :: t) ≠ 0 := by
              rw [absCount_cons]
              omega
            have := h1ch.2 habs'
            rw [cpCount_cons, if_pos ⟨rfl, hA⟩] at this
            omega
        · exact htail_le

theorem guessStep_counts_invariant (ca : Nat → Nat) (pc idx : Nat) (q : Puzzle)
    (i ch : Nat) (h : Hint)
    (hok1 : (h ≠ Hint.Absent → (if ch = pc then idx else 0) + 1 ≤ ca ch) ∧
      (h = Hint.Absent → ca ch ≤ (if ch = pc then idx else 0)))
    (hJ : ∀ l, (q.letterCounts l).1 ≤ ca l ∧ ca l ≤ (q.letterCounts l).2) :
    ∀ l, (((guessStep (pc, idx, q) (i, ch, h)).2.2).letterCounts l).1 ≤ ca l ∧
      ca l ≤ (((guessStep (pc, idx, q) (i, ch, h)).2.2).letterCounts l).2 := by
  intro l
  cases h with
  | Correct =>
    dsimp only [guessStep]
    by_cases hl : l = ch
    · subst hl
      rw [Function.update_same]
      have hup := hok1.1 (fun hc => Hint.noConfusion hc)
      have hJl := hJ l
      exact ⟨by dsimp only; omega, by dsimp only; omega⟩
    · rw [Function.update_noteq hl]
      exact hJ l
  | Present =>
    dsimp only [guessStep]
    by_cases hl : l = ch
    · subst hl
      rw [Function.update_same]
      have hup := hok1.1 (fun hc => Hint.noConfusion hc)
      have hJl := hJ l
      exact ⟨by dsimp only; omega, by dsimp only; omega⟩
    · rw [Function.update_noteq hl]
      exact hJ l
  | Absent =>
    dsimp only [guessStep]
    by_cases hl : l = ch
    · subst hl
      rw [Function.update_same]
      have hup := hok1.2 rfl
      have hJl := hJ l
      exact ⟨by dsimp only; omega, by dsimp only; omega⟩
    · rw [Function.update_noteq hl]
      exact hJ l

theorem foldGuess_counts_invariant (ca : Nat → Nat) (entries : List Entry) :
    ∀ (pc idx : Nat) (q : Puzzle),
      okWalk ca pc idx entries →
      (∀ l, (q.letterCounts l).1 ≤ ca l ∧ ca l ≤ (q.letterCounts l).2) →
      ∀ l, (((entries.foldl guessStep (pc, idx, q)).2.2).letterCounts l).1 ≤ ca l ∧
        ca l ≤ (((entries.foldl guessStep (pc, idx, q)).2.2).letterCounts l).2 := by
  induction entries with
  | nil => intro pc idx q _ hJ l; exact hJ l
  | cons e rest ih =>
    intro pc idx q hok hJ l
    rcases e with ⟨i, ch, h⟩
    rw [okWalk] at hok
    rw [List.foldl_cons]
    have hJ' := guessStep_counts_invariant ca pc idx q i ch h hok.1 hJ
    cases h with
    | Correct => exact ih ch _ _ hok.2 hJ' l
    | Present => exact ih ch _ _ hok.2 hJ' l
    | Absent => exact ih ch _ _ hok.2 hJ' l

theorem match_le_cp (s : List (Nat × Nat)) : ∀ (f : Nat → Nat) (l : Nat),
    matchCount l s ≤
      (((s.map Prod.fst).zip (hintPass2 f s)).countP
        fun gh => decide (gh.1 = l) && decide (gh.2 ≠ Hint.Absent)) := by
  induction s with
  | nil => intro f l; simp [matchCount]
  | cons gp t ih =>
    intro f l
    rcases gp with ⟨g, a⟩
    rw [List.map_cons, hintPass2, matchCount_cons]
    by_cases hga : g = a
    · rw [if_pos hga, List.zip_cons_cons, List.countP_cons]
      have hih := ih f l
      by_cases hgl : g = l
      · rw [if_pos ⟨hga, hgl⟩,
          if_pos (show ((fun gh => decide (gh.1 = l) && decide (gh.2 ≠ Hint.Absent))
            ((g : Nat), Hint.Correct)) = true by simp [hgl])]
        omega
      · rw [if_neg (show ¬(g = a ∧ g = l) from fun hc => hgl hc.2)]
        omega
    · rw [if_neg hga, if_neg (show ¬(g = a ∧ g = l) from fun hc => hga hc.1)]
      by_cases hfg : f g > 0
      · rw [if_pos hfg, List.zip_cons_cons, List.countP_cons]
        have hih := ih (Function.update f g (f g - 1)) l
        omega
      · rw [if_neg hfg, List.zip_cons_cons, List.countP_cons]
        have hih := ih f l
        omega

theorem hintPass2_abs_ge (s : List (Nat × Nat)) : ∀ (f : Nat → Nat) (l : Nat),
    (((s.map Prod.fst).zip (hintPass2 f s)).countP
      fun gh => decide (gh.1 = l) && decide (gh.2 = Hint.Absent)) ≠ 0 →
      f l + matchCount l s ≤
        (((s.map Prod.fst).zip (hintPass2 f s)).countP
          fun gh => decide (gh.1 = l) && decide (gh.2 ≠ Hint.Absent)) := by
  induction s with
  | nil => intro f l habs; simp at habs
  | cons gp t ih =>
    intro f l habs
    rcases gp with ⟨g, a⟩
    rw [List.map_cons, hintPass2] at habs ⊢
    rw [matchCount_cons]
    by_cases hga : g = a
    · rw [if_pos hga] at habs ⊢
      rw [List.zip_cons_cons, List.countP_cons] at habs ⊢
      rw [if_neg (show ¬(((fun gh => decide (gh.1 = l) && decide (gh.2 = Hint.Absent))
        ((g : Nat), Hint.Correct)) = true) by simp)] at habs
      have hih := ih f l (by omega)
      by_cases hgl : g = l
      · rw [if_pos ⟨hga, hgl⟩,
          if_pos (show ((fun gh => decide (gh.1 = l) && decide (gh.2 ≠ Hint.Absent))
            ((g : Nat), Hint.Correct)) = true by simp [hgl])]
        omega
      · rw [if_neg (show ¬(g = a ∧ g = l) from fun hc => hgl hc.2),
          if_neg (show ¬(((fun gh => decide (gh.1 = l) && decide (gh.2 ≠ Hint.Absent))
            ((g : Nat), Hint.Correct)) = true) by simp [hgl])]
        omega
    · rw [if_neg hga] at habs ⊢
      rw [if_neg (show ¬(g = a ∧ g = l) from fun hc => hga hc.1)]
      by_cases hfg : f g > 0
      · rw [if_pos hfg] at habs ⊢
        rw [List.zip_cons_cons, List.countP_cons] at habs ⊢
        rw [if_neg (show ¬(((fun gh => decide (gh.1 = l) && decide (gh.2 = Hint.Absent))
          ((g : Nat), Hint.Present)) = true) by simp)] at habs
        by_cases hgl : g = l
        · subst hgl
          have hih := ih (Function.update f g (f g - 1)) g (by omega)
          rw [Function.update_same] at hih
          rw [if_pos (show ((fun gh => decide (gh.1 = g) && decide (gh.2 ≠ Hint.Absent))
            ((g : Nat), Hint.Present)) = true by simp)]
          omega
        · have hih := ih (Function.update f g (f g - 1)) l (by omega)
          rw [Function.update_noteq (show l ≠ g from fun hc => hgl hc.symm)] at hih
          rw [if_neg (show ¬(((fun gh => decide (gh.1 = l) && decide (gh.2 ≠ Hint.Absent))
            ((g : Nat), Hint.Present)) = true) by simp [hgl])]
          omega
      · rw [if_neg hfg] at habs ⊢
        rw [List.zip_cons_cons, List.countP_cons] at habs ⊢
        rw [if_neg (show ¬(((fun gh => decide (gh.1 = l) && decide (gh.2 ≠ Hint.Absent))
          ((g : Nat), Hint.Absent)) = true) by simp)]
        by_cases hgl : g = l
        · subst hgl
          have hmt := match_le_cp t f g
          have hfg0 : f g = 0 := by omega
          omega
        · have hih := ih f l (by
            rw [if_neg (show ¬(((fun gh => decide (gh.1 = l) && decide (gh.2 = Hint.Absent))
              ((g : Nat), Hint.Absent)) = true) by simp [hgl])] at habs
            omega)
          omega

theorem countP_enumFrom {α : Type} (p : α → Bool) :
    ∀ (l : List α) (n : Nat),
      (l.enumFrom n).countP (fun e => p e.2) = l.countP p := by
  intro l
  induction l with
  | nil => intro n; rfl
  | cons x t ih =>
    intro n
    rw [List.enumFrom_cons, List.countP_cons, List.countP_cons, ih]

theorem countP_enum {α : Type} (p : α → Bool) (l : List α) :
    l.enum.countP (fun e => p e.2) = l.countP p :=
  countP_enumFrom p l 0

theorem getHintCore_cp_le (g a : List Nat) (hlen : g.length = a.length) (l : Nat) :
    ((g.zip (getHintCore g a)).countP
      fun gh => decide (gh.1 = l) && decide (gh.2 ≠ Hint.Absent)) ≤ a.count l := by
  have hmc : ∀ l', matchCount l' (g.zip a) ≤ buildCounts a l' := by
    intro l'
    rw [buildCounts_eq]
    calc matchCount l' (g.zip a) ≤ ((g.zip a).map Prod.snd).count l' :=
          matchCount_le_snd _ _
      _ = a.count l' := by rw [List.map_snd_zip _ _ (le_of_eq hlen.symm)]
  have hcp := hintPass2_cp_le (g.zip a) (hintPass1 (buildCounts a) (g.zip a)) l
  rw [List.map_fst_zip _ _ (le_of_eq hlen)] at hcp
  rw [hintPass1_eq _ _ hmc l] at hcp
  have hble := hmc l
  rw [buildCounts_eq] at hble hcp
  unfold getHintCore
  omega

theorem getHintCore_abs_cp (g a : List Nat) (hlen : g.length = a.length) (l : Nat)
    (habs : ((g.zip (getHintCore g a)).countP
      fun gh => decide (gh.1 = l) && decide (gh.2 = Hint.Absent)) ≠ 0) :
    a.count l ≤ ((g.zip (getHintCore g a)).countP
      fun gh => decide (gh.1 = l) && decide (gh.2 ≠ Hint.Absent)) := by
  have hmc : ∀ l', matchCount l' (g.zip a) ≤ buildCounts a l' := by
    intro l'
    rw [buildCounts_eq]
    calc matchCount l' (g.zip a) ≤ ((g.zip a).map Prod.snd).count l' :=
          matchCount_le_snd _ _
      _ = a.count l' := by rw [List.map_snd_zip _ _ (le_of_eq hlen.symm)]
  unfold getHintCore at habs ⊢
  have hge := hintPass2_abs_ge (g.zip a) (hintPass1 (buildCounts a) (g.zip a)) l
  rw [List.map_fst_zip _ _ (le_of_eq hlen)] at hge
  have hge' := hge habs
  rw [hintPass1_eq _ _ hmc l] at hge'
  have hble := hmc l
  rw [buildCounts_eq] at hble hge'
  omega

theorem okWalk_of_getHint (w answer : List Char) (ht : List Hint)
    (hok : getHint w answer = .ok ht) :
    okWalk (fun l => (normalize answer).count l) 0 0
      (sortEntries ((normalize w).zip ht).enum) := by
  unfold getHint at hok
  cases hca : checkWord answer.length answer with
  | some e => rw [hca] at hok; cases hok
  | none =>
    rw [hca] at hok
    cases hcg : checkWord answer.length w with
    | some e => rw [hcg] at hok; cases hok
    | none =>
      rw [hcg] at hok
      cases hok
      have hlen : (normalize w).length = (normalize answer).length := by
        rw [normalize_length, normalize_length, (checkWord_none _ _ hcg).2]
      set ng := normalize w with hng
      set na := normalize answer with hna
      set s := ng.zip (getHintCore ng na) with hs
      have hperm : ∀ (p : Entry → Bool),
          (sortEntries s.enum).countP p = s.enum.countP p := fun p =>
        (List.perm_insertionSort keyLe s.enum).countP_eq p
      have hcp_eq : ∀ l, cpCount l (sortEntries s.enum) =
          s.countP fun gh => decide (gh.1 = l) && decide (gh.2 ≠ Hint.Absent) := by
        intro l
        unfold cpCount
        rw [hperm]
        exact countP_enum (fun gh => decide (gh.1 = l) && decide (gh.2 ≠ Hint.Absent)) s
      have habs_eq : ∀ l, absCount l (sortEntries s.enum) =
          s.countP fun gh => decide (gh.1 = l) && decide (gh.2 = Hint.Absent) := by
        intro l
        unfold absCount
        rw [hperm]
        exact countP_enum (fun gh => decide (gh.1 = l) && decide (gh.2 = Hint.Absent)) s
      have hconds : ∀ l, cpCount l (sortEntries s.enum) ≤ na.count l ∧
          (absCount l (sortEntries s.enum) ≠ 0 →
            na.count l ≤ cpCount l (sortEntries s.enum)) := by
        intro l
        rw [hcp_eq, habs_eq]
        exact ⟨getHintCore_cp_le ng na hlen l,
          fun habs => getHintCore_abs_cp ng na hlen l habs⟩
      apply okWalk_of_sorted
      · exact List.sorted_insertionSort keyLe s.enum
      · exact fun l _ => hconds l
      · left
        exact ⟨by have := (hconds 0).1; omega, fun habs => by
          have := (hconds 0).2 habs
          omega⟩
      · exact fun e _ => Nat.zero_le _

theorem guess_step_J (answer : List Char) (p : Puzzle) (w : List Char) (ht : List Hint)
    (hok : getHint w answer = .ok ht)
    (hJ : ∀ l, (p.letterCounts l).1 ≤ (normalize answer).count l ∧
      (normalize answer).count l ≤ (p.letterCounts l).2) :
    ∀ l, (((guess p w ht).1).letterCounts l).1 ≤ (normalize answer).count l ∧
      (normalize answer).count l ≤ (((guess p w ht).1).letterCounts l).2 := by
  rcases guess_state_cases p w ht with h | h <;> rw [h]
  · exact hJ
  · intro l
    unfold guessImpl
    rw [reduce_letterCounts]
    exact foldGuess_counts_invariant _ _ 0 0 p (okWalk_of_getHint w answer ht hok) hJ l

/-- Claim C4, corrected.  For any dictionary and any sequence of guess calls
whose hints are produced by `get_hint` against one fixed answer of the
puzzle's length (a well-formed game), every letter's minimum occurrence bound
stays at most its maximum occurrence bound; since the statement quantifies
over every such hint sequence, it covers every intermediate state as well.
Failed guess calls leave the state unchanged and are harmless. -/
theorem guess_minMax_of_game (dict : List Word) (L : Nat) (answer : List Char)
    (steps : List (List Char × List Hint))
    (hansL : answer.length = L)
    (hsteps : ∀ s ∈ steps, getHint s.1 answer = .ok s.2) :
    ∀ l, ((steps.foldl (fun p s => (guess p s.1 s.2).1) (Puzzle.new dict L)).letterCounts l).1 ≤
      ((steps.foldl (fun p s => (guess p s.1 s.2).1) (Puzzle.new dict L)).letterCounts l).2 := by
  have key : ∀ (steps' : List (List Char × List Hint)) (p : Puzzle),
      (∀ s ∈ steps', getHint s.1 answer = .ok s.2) →
      (∀ l, (p.letterCounts l).1 ≤ (normalize answer).count l ∧
        (normalize answer).count l ≤ (p.letterCounts l).2) →
      ∀ l, ((steps'.foldl (fun p s => (guess p s.1 s.2).1) p).letterCounts l).1 ≤
          (normalize answer).count l ∧
        (normalize answer).count l ≤
          ((steps'.foldl (fun p s => (guess p s.1 s.2).1) p).letterCounts l).2 := by
    intro steps'
    induction steps' with
    | nil => exact fun p _ hJ => hJ
    | cons s rest ih =>
      intro p hs hJ
      rw [List.foldl_cons]
      exact ih _ (fun s' hs' => hs s' (List.mem_cons_of_mem _ hs'))
        (guess_step_J answer p s.1 s.2 (hs s (List.mem_cons_self _ _)) hJ)
  have hinit : ∀ l, ((Puzzle.new dict L).letterCounts l).1 ≤ (normalize answer).count l ∧
      (normalize answer).count l ≤ ((Puzzle.new dict L).letterCounts l).2 := by
    intro l
    unfold Puzzle.new
    rw [reduce_letterCounts]
    refine ⟨Nat.zero_le _, ?_⟩
    calc (normalize answer).count l ≤ (normalize answer).length :=
          List.count_le_length _ _
      _ = L := by rw [normalize_length, hansL]
  intro l
  have := key steps (Puzzle.new dict L) hsteps hinit l
  omega

theorem guess_minMax_of_game_witness :
    ((['b'] : List Char).length = 1) ∧
      (∀ s ∈ [((['a'] : List Char), [Hint.Absent])], getHint s.1 ['b'] = .ok s.2) ∧
      (([((['a'] : List Char), [Hint.Absent])].foldl (fun p s => (guess p s.1 s.2).1)
          (Puzzle.new dictB 1)).letterCounts 0).1 ≤
        (([((['a'] : List Char), [Hint.Absent])].foldl (fun p s => (guess p s.1 s.2).1)
          (Puzzle.new dictB 1)).letterCounts 0).2 :=
  ⟨rfl, by decide, guess_minMax_of_game dictB 1 ['b'] _ rfl (by decide) 0⟩

set_option maxHeartbeats 2000000 in
theorem guess_monotone_witness :
    WF cexPuzzle ∧
      ((guess cexPuzzle ['b', 'a'] [Hint.Correct, Hint.Correct]).1.slots.getD 0 ∅ ⊆
        cexPuzzle.slots.getD 0 ∅) ∧
      (cexPuzzle.letterCounts 0).1 ≤
        ((guess cexPuzzle ['b', 'a'] [Hint.Correct, Hint.Correct]).1.letterCounts 0).1 :=
  ⟨by decide,
    (guess_monotone cexPuzzle ['b', 'a'] [Hint.Correct, Hint.Correct] (by decide)).1 0,
    ((guess_monotone cexPuzzle ['b', 'a'] [Hint.Correct, Hint.Correct] (by decide)).2 0).1⟩

end WordleSolver
